import Mathlib

/-!
Shallow embedding of the priority task queue scheduler
(`src/exercise-priority-queue.js`-style source, `createTaskQueue`).

The JS component is single-threaded and cooperative: `enqueue`, `cancel`,
the dispatcher `pump`, and settlement callbacks all run on unbroken
synchronous paths.  We therefore model the scheduler as a deterministic
transition system over an explicit state:

* `Item` mirrors the queue entry `{ id, priority, enqueuedAt, canceled }`;
  the `run/resolve/reject` closures are represented by the event machinery.
* A promise's single-settlement behaviour is modelled by an association
  list `outcomes` to which a binding is added only when no binding for the
  id exists yet (`settleO`): the first settlement wins, later ones are
  no-ops, exactly as `resolve`/`reject` behave on an already settled
  promise.
* `started` records the order in which work units were handed to an
  execution slot (the order `item.run()` invocations are scheduled);
  `active` holds the ids of dispatched, not-yet-settled tasks.
* Environment events: `enqueue` (a caller submits work), `cancel` (the
  caller invokes the cancel closure of task `id`), `finish` (the work unit
  of a dispatched task settles with a value or an error, which runs the
  `.then(resolve, reject).finally(...)` chain).

Numbers (`priority`, timestamps, the `running` counter, the configured
`concurrency` and `agingMs`) are JS numbers holding integers; they are
modelled as `Int`, with `Int.fdiv` for `Math.floor` of a quotient.
-/

/-- JS `Priority` enum: `Object.freeze({ high: 0, normal: 1, low: 2 })`. -/
def Priority.high : Int := 0

/-- JS `Priority.normal = 1`. -/
def Priority.normal : Int := 1

/-- JS `Priority.low = 2`. -/
def Priority.low : Int := 2

/-- A queue entry: `{ id, priority, enqueuedAt, run, resolve, reject, canceled }`.
The three closures are modelled by the event machinery, not stored. -/
structure Item where
  id : Nat
  priority : Int
  enqueuedAt : Int
  canceled : Bool
  deriving Repr, DecidableEq

/-- The settled value of a task's promise: fulfilled with the work unit's
return value, rejected with its failure reason, or rejected with the
`CancelError` signal. -/
inductive Outcome where
  | fulfilled (v : Nat)
  | rejected (e : Nat)
  | canceled
  deriving Repr, DecidableEq

/-- How a work unit's own execution settles (before any cancellation race). -/
inductive WorkResult where
  | ok (v : Nat)
  | err (e : Nat)
  deriving Repr, DecidableEq

/-- Association-list lookup for promise outcomes. -/
def lookupO : List (Nat × Outcome) → Nat → Option Outcome
  | [], _ => none
  | (i, o) :: rest, id => if i = id then some o else lookupO rest id

/-- Settle task `id`'s promise with outcome `o`: a promise settles at most
once, so if a binding already exists the call is a no-op (this is exactly
`resolve`/`reject` on an already settled JS promise). -/
def settleO (l : List (Nat × Outcome)) (id : Nat) (o : Outcome) : List (Nat × Outcome) :=
  match lookupO l id with
  | some _ => l
  | none => (id, o) :: l

/-- The whole closure state of one `createTaskQueue` instance, plus the
observable history (`started`, `outcomes`). -/
structure QueueState where
  concurrency : Int
  agingMs : Int
  running : Int
  idSeq : Nat
  q : List Item
  active : List Nat
  started : List Nat
  outcomes : List (Nat × Outcome)
  deriving Repr, DecidableEq

/-- Source `score(item, now)` from `pickNextIndex`:
`Math.max(0, item.priority - Math.floor((now - item.enqueuedAt) / agingMs))`. -/
def score (agingMs : Int) (item : Item) (now : Int) : Int :=
  max 0 (item.priority - Int.fdiv (now - item.enqueuedAt) agingMs)

/-- The `for (let i = 1; ...)` scan of `pickNextIndex`: strict `<` keeps the
earliest index on ties. `i` is the index of the head of the remaining list
in the full array, `bestIdx`/`bestScore` the best seen so far. -/
def pickLoop (agingMs now : Int) : List Item → Nat → Nat → Int → Nat
  | [], _, bestIdx, _ => bestIdx
  | it :: rest, i, bestIdx, bestScore =>
    if score agingMs it now < bestScore then
      pickLoop agingMs now rest (i + 1) i (score agingMs it now)
    else
      pickLoop agingMs now rest (i + 1) bestIdx bestScore

/-- Source `pickNextIndex()`: `-1` on an empty queue (modelled as `none`), else the
index of the first entry attaining the minimal aging score at time `now`. -/
def pickNextIndex (agingMs : Int) (q : List Item) (now : Int) : Option Nat :=
  match q with
  | [] => none
  | first :: rest => some (pickLoop agingMs now rest 1 0 (score agingMs first now))

/-- Translate a work unit's own settlement into the promise outcome applied
by `.then(item.resolve, item.reject)`. -/
def workOutcome : WorkResult → Outcome
  | .ok v => .fulfilled v
  | .err e => .rejected e

/-- One `while` pass of `pump()`, with explicit fuel.  Each iteration either
stops (no capacity, or `pickNextIndex` returned `-1`) or splices exactly one
entry out of `q`: a canceled entry is dropped (`continue`) without touching
`running`; otherwise `running += 1` and the work unit is started
(recorded in `started`/`active`).  Fuel `q.length` is enough because every
iteration shortens `q` by one. -/
def pumpFuel (now : Int) : Nat → QueueState → QueueState
  | 0, s => s
  | n + 1, s =>
    if s.running < s.concurrency then
      match pickNextIndex s.agingMs s.q now with
      | none => s
      | some idx =>
        match s.q.get? idx with
        | none => s
        | some item =>
          let s' := { s with q := s.q.eraseIdx idx }
          if item.canceled then
            pumpFuel now n s'
          else
            pumpFuel now n { s' with
              running := s'.running + 1,
              active := s'.active ++ [item.id],
              started := s'.started ++ [item.id] }
    else s

/-- Source `pump()` at wall-clock time `now`. -/
def pump (now : Int) (s : QueueState) : QueueState :=
  pumpFuel now s.q.length s

/-- The fresh item built inside `enqueue(run, { priority = Priority.normal })`:
an omitted priority defaults to `Priority.normal`. -/
def mkItem (s : QueueState) (priority : Option Int) (now : Int) : Item :=
  { id := s.idSeq
    priority := priority.getD Priority.normal
    enqueuedAt := now
    canceled := false }

/-- Source `createTaskQueue({ concurrency = 2, agingMs = 200 })`: omitted options
take the defaults; `running = 0`, `idSeq = 1`, empty queue. -/
def createTaskQueue (concurrency agingMs : Option Int) : QueueState :=
  { concurrency := concurrency.getD 2
    agingMs := agingMs.getD 200
    running := 0
    idSeq := 1
    q := []
    active := []
    started := []
    outcomes := [] }

/-- Source `stats()`: `{ queued: q.length, running }`. -/
def stats (s : QueueState) : Nat × Int :=
  (s.q.length, s.running)

/-- The body of the cancel closure acting on a queued entry:
`item.canceled = true` for the entry whose id matches the canceled task. -/
def markCanceled (cid : Nat) (it : Item) : Item :=
  if it.id = cid then { it with canceled := true } else it

/-- The environment events driving one scheduler instance. -/
inductive Event where
  | enqueue (priority : Option Int) (now : Int)
  | cancel (id : Nat)
  | finish (id : Nat) (res : WorkResult) (now : Int)
  deriving Repr, DecidableEq

/-- One synchronous step of the scheduler.

* `enqueue`: `idSeq++`, push the fresh item, `pump()` — all inside the
  promise executor, synchronously.
* `cancel id`: the cancel closure of task `id` (it exists only for ids that
  were actually allocated, hence the `id < idSeq` guard): sets
  `item.canceled = true` on the queue entry if it is still queued, and
  rejects the task's promise with `CancelError` — a no-op if the promise
  already settled.  The entry is NOT removed from `q`.
* `finish id res`: the work unit of a dispatched task settles; its
  `.then(resolve, reject)` settles the promise (first settlement wins),
  then `.finally` does `running -= 1; pump()`. -/
def step (s : QueueState) : Event → QueueState
  | .enqueue prio now =>
    pump now { s with idSeq := s.idSeq + 1, q := s.q ++ [mkItem s prio now] }
  | .cancel cid =>
    if cid < s.idSeq then
      { s with
        q := s.q.map (markCanceled cid),
        outcomes := settleO s.outcomes cid .canceled }
    else s
  | .finish fid res now =>
    if fid ∈ s.active then
      pump now { s with
        outcomes := settleO s.outcomes fid (workOutcome res),
        active := s.active.erase fid,
        running := s.running - 1 }
    else s

/-- Run a whole event trace. -/
def runEvents (s : QueueState) (events : List Event) : QueueState :=
  events.foldl step s

/-! ### Lemmas about single-settlement of promise outcomes -/

theorem settleO_of_some {l : List (Nat × Outcome)} {id : Nat} {o : Outcome}
    (h : lookupO l id = some o) (o' : Outcome) : settleO l id o' = l := by
  simp [settleO, h]

theorem lookupO_settleO_self {l : List (Nat × Outcome)} {id : Nat}
    (h : lookupO l id = none) (o : Outcome) : lookupO (settleO l id o) id = some o := by
  simp [settleO, h, lookupO]

theorem lookupO_settleO_ne {l : List (Nat × Outcome)} {id id' : Nat}
    (h : id ≠ id') (o : Outcome) : lookupO (settleO l id' o) id = lookupO l id := by
  unfold settleO
  cases hl : lookupO l id' with
  | some _ => rfl
  | none => simp [lookupO, (Ne.symm h)]

theorem lookupO_settleO_mono {l : List (Nat × Outcome)} {id : Nat} {o : Outcome}
    (h : lookupO l id = some o) (id' : Nat) (o' : Outcome) :
    lookupO (settleO l id' o') id = some o := by
  by_cases hid : id = id'
  · subst hid
    rw [settleO_of_some h o']
    exact h
  · rw [lookupO_settleO_ne hid o']
    exact h

theorem lookupO_settleO_none {l : List (Nat × Outcome)} {id id' : Nat} {o' : Outcome}
    (h : lookupO (settleO l id' o') id ≠ none) :
    lookupO l id ≠ none ∨ id = id' := by
  by_cases hid : id = id'
  · exact Or.inr hid
  · rw [lookupO_settleO_ne hid o'] at h
    exact Or.inl h

/-! ### Fields left untouched by the dispatcher loop -/

theorem pumpFuel_concurrency (now : Int) (n : Nat) (s : QueueState) :
    (pumpFuel now n s).concurrency = s.concurrency := by
  induction n generalizing s with
  | zero => rfl
  | succ n ih =>
    unfold pumpFuel
    split
    · split
      · rfl
      · split
        · rfl
        · split
          · exact ih _
          · exact ih _
    · rfl

theorem pumpFuel_agingMs (now : Int) (n : Nat) (s : QueueState) :
    (pumpFuel now n s).agingMs = s.agingMs := by
  induction n generalizing s with
  | zero => rfl
  | succ n ih =>
    unfold pumpFuel
    split
    · split
      · rfl
      · split
        · rfl
        · split
          · exact ih _
          · exact ih _
    · rfl

theorem pumpFuel_idSeq (now : Int) (n : Nat) (s : QueueState) :
    (pumpFuel now n s).idSeq = s.idSeq := by
  induction n generalizing s with
  | zero => rfl
  | succ n ih =>
    unfold pumpFuel
    split
    · split
      · rfl
      · split
        · rfl
        · split
          · exact ih _
          · exact ih _
    · rfl

theorem pumpFuel_outcomes (now : Int) (n : Nat) (s : QueueState) :
    (pumpFuel now n s).outcomes = s.outcomes := by
  induction n generalizing s with
  | zero => rfl
  | succ n ih =>
    unfold pumpFuel
    split
    · split
      · rfl
      · split
        · rfl
        · split
          · exact ih _
          · exact ih _
    · rfl

theorem pumpFuel_of_no_capacity {s : QueueState} (h : ¬ s.running < s.concurrency)
    (now : Int) (n : Nat) : pumpFuel now n s = s := by
  cases n with
  | zero => rfl
  | succ n =>
    unfold pumpFuel
    simp [h]

/-! ### The concurrency bound (claim C1 machinery) -/

theorem pumpFuel_running_le (now : Int) (n : Nat) (s : QueueState)
    (h : s.running ≤ s.concurrency) : (pumpFuel now n s).running ≤ s.concurrency := by
  induction n generalizing s with
  | zero => exact h
  | succ n ih =>
    unfold pumpFuel
    split
    · split
      · exact h
      · split
        · exact h
        · split
          · exact ih _ h
          · rename_i hlt _ _ _ _
            exact ih _ (show s.running + 1 ≤ s.concurrency by omega)
    · exact h

theorem step_concurrency (s : QueueState) (e : Event) :
    (step s e).concurrency = s.concurrency := by
  cases e with
  | enqueue prio now =>
    exact pumpFuel_concurrency now _ _
  | cancel cid =>
    simp only [step]
    split <;> rfl
  | finish fid res now =>
    simp only [step]
    split
    · exact pumpFuel_concurrency now _ _
    · rfl

theorem step_running_le (s : QueueState) (e : Event)
    (h : s.running ≤ s.concurrency) : (step s e).running ≤ (step s e).concurrency := by
  rw [step_concurrency]
  cases e with
  | enqueue prio now =>
    exact pumpFuel_running_le now _ _ h
  | cancel cid =>
    simp only [step]
    split <;> exact h
  | finish fid res now =>
    simp only [step]
    split
    · exact pumpFuel_running_le now _ _ (show s.running - 1 ≤ s.concurrency by omega)
    · exact h

theorem runEvents_running_le (s : QueueState) (events : List Event)
    (h : s.running ≤ s.concurrency) :
    (runEvents s events).running ≤ (runEvents s events).concurrency := by
  induction events generalizing s with
  | nil => exact h
  | cons e rest ih => exact ih (step s e) (step_running_le s e h)

theorem runEvents_concurrency (s : QueueState) (events : List Event) :
    (runEvents s events).concurrency = s.concurrency := by
  induction events generalizing s with
  | nil => rfl
  | cons e rest ih => exact (ih (step s e)).trans (step_concurrency s e)

/-- C1: for every sequence of submissions, settlements, and cancellations
against a queue configured with a (non-negative, per §6 a positive integer)
concurrency limit `c`, the `running` counter never exceeds `c`. -/
theorem running_never_exceeds_concurrency (c : Int) (oa : Option Int)
    (hc : 0 ≤ c) (events : List Event) :
    (runEvents (createTaskQueue (some c) oa) events).running ≤ c := by
  have h0 : (createTaskQueue (some c) oa).running ≤ (createTaskQueue (some c) oa).concurrency := by
    simpa [createTaskQueue] using hc
  have := runEvents_running_le (createTaskQueue (some c) oa) events h0
  rwa [runEvents_concurrency, show (createTaskQueue (some c) oa).concurrency = c from rfl] at this

/-! ### The aging score function (claims C3 and C9) -/

/-- Modelled from the spec's words (§4.1), for comparison with the source's
`score`: `effectiveUrgency = max(0, priority - floor(waitedMs / agingWindowMs))`.
For `0 < a`, Euclidean division `w / a` is exactly `floor(w / a)`. -/
def specScore (p w a : Int) : Int := max 0 (p - w / a)

/-- C3: the effective urgency the scheduler computes for a task enqueued at
`t`, evaluated at `t + w` (waited `w ≥ 0`) under aging window `a > 0`, is
`max(0, p - floor(w / a))`; with `agingMs = 150` a low-priority (2) task
that waited 300ms scores 0, the same as a freshly submitted high-priority
(0) task. -/
theorem score_matches_spec_formula (id : Nat) (c : Bool) (p t w a : Int)
    (hw : 0 ≤ w) (ha : 0 < a) :
    score a ⟨id, p, t, c⟩ (t + w) = specScore p w a ∧
    score 150 ⟨1, Priority.low, 0, false⟩ 300 = 0 ∧
    score 150 ⟨2, Priority.high, 300, false⟩ 300 = 0 := by
  refine ⟨?_, by decide, by decide⟩
  unfold score specScore
  have h1 : t + w - t = w := by ring
  rw [show Item.priority ⟨id, p, t, c⟩ = p from rfl,
    show Item.enqueuedAt ⟨id, p, t, c⟩ = t from rfl, h1,
    Int.fdiv_eq_ediv w (le_of_lt ha)]

/-- Witness for C3 at `p = 2`, `w = 300`, `a = 150`, `t = 0`. -/
theorem score_matches_spec_formula_witness :
    (0 : Int) ≤ 300 ∧ (0 : Int) < 150 ∧
      (score 150 ⟨3, 2, 0, false⟩ (0 + 300) = specScore 2 300 150 ∧
       score 150 ⟨1, Priority.low, 0, false⟩ 300 = 0 ∧
       score 150 ⟨2, Priority.high, 300, false⟩ 300 = 0) :=
  ⟨by decide, by decide,
   score_matches_spec_formula 3 false 2 0 300 150 (by decide) (by decide)⟩

/-- C9: for a fixed priority and aging window `a > 0`, the score is
non-increasing in the waited duration, and every score is bounded below
by 0. -/
theorem score_antitone_in_wait (id : Nat) (c : Bool) (p t a w1 w2 : Int)
    (ha : 0 < a) (hw : w1 ≤ w2) :
    score a ⟨id, p, t, c⟩ (t + w2) ≤ score a ⟨id, p, t, c⟩ (t + w1) ∧
    (∀ (it : Item) (now : Int), 0 ≤ score a it now) := by
  constructor
  · unfold score
    rw [show Item.priority ⟨id, p, t, c⟩ = p from rfl,
      show Item.enqueuedAt ⟨id, p, t, c⟩ = t from rfl,
      show t + w1 - t = w1 by ring, show t + w2 - t = w2 by ring,
      Int.fdiv_eq_ediv w1 (le_of_lt ha), Int.fdiv_eq_ediv w2 (le_of_lt ha)]
    have hdiv : w1 / a ≤ w2 / a := Int.ediv_le_ediv ha hw
    exact max_le_max (le_refl 0) (by omega)
  · intro it now
    exact le_max_left 0 _

/-- Witness for C9 at `p = 2`, `a = 150`, `w1 = 100 ≤ w2 = 300`. -/
theorem score_antitone_in_wait_witness :
    (0 : Int) < 150 ∧ (100 : Int) ≤ 300 ∧
      score 150 ⟨4, 2, 0, false⟩ (0 + 300) ≤ score 150 ⟨4, 2, 0, false⟩ (0 + 100) ∧
      0 ≤ score 150 ⟨4, 2, 0, false⟩ 77 :=
  ⟨by decide, by decide,
   (score_antitone_in_wait 4 false 2 0 150 100 300 (by decide) (by decide)).1,
   (score_antitone_in_wait 4 false 2 0 150 100 300 (by decide) (by decide)).2 ⟨4, 2, 0, false⟩ 77⟩

/-! ### Defaults (claim C10) -/

/-- C10: omitted configuration defaults to `concurrency = 2` and
`agingMs = 200`, and an omitted submission priority defaults to
`Priority.normal = 1`. -/
theorem omitted_options_take_defaults :
    (createTaskQueue none none).concurrency = 2 ∧
    (createTaskQueue none none).agingMs = 200 ∧
    (∀ (s : QueueState) (now : Int), (mkItem s none now).priority = Priority.normal) ∧
    Priority.normal = 1 :=
  ⟨rfl, rfl, fun _ _ => rfl, rfl⟩

/-- Witness for C1 at `c = 1` with three submissions and one settlement. -/
theorem running_never_exceeds_concurrency_witness :
    (0 : Int) ≤ 1 ∧
      (runEvents (createTaskQueue (some 1) none)
        [.enqueue (some 2) 0, .enqueue (some 0) 0, .enqueue none 0,
         .finish 1 (.ok 5) 10]).running ≤ 1 :=
  ⟨by decide,
   running_never_exceeds_concurrency 1 none (by decide)
     [.enqueue (some 2) 0, .enqueue (some 0) 0, .enqueue none 0, .finish 1 (.ok 5) 10]⟩

/-! ### Single settlement of each task's promise (claim C2 machinery) -/

theorem step_outcomes_mono (s : QueueState) (e : Event) (id : Nat) (o : Outcome)
    (h : lookupO s.outcomes id = some o) : lookupO (step s e).outcomes id = some o := by
  cases e with
  | enqueue prio now =>
    simp only [step]
    unfold pump
    rw [pumpFuel_outcomes]
    exact h
  | cancel cid =>
    simp only [step]
    split
    · exact lookupO_settleO_mono h cid .canceled
    · exact h
  | finish fid res now =>
    simp only [step]
    split
    · unfold pump
      rw [pumpFuel_outcomes]
      exact lookupO_settleO_mono h fid _
    · exact h

theorem runEvents_outcomes_mono (s : QueueState) (events : List Event) (id : Nat) (o : Outcome)
    (h : lookupO s.outcomes id = some o) :
    lookupO (runEvents s events).outcomes id = some o := by
  induction events generalizing s with
  | nil => exact h
  | cons e rest ih => exact ih _ (step_outcomes_mono s e id o h)

theorem step_outcomes_new (s : QueueState) (e : Event) (id : Nat) (o : Outcome)
    (h0 : lookupO s.outcomes id = none)
    (h1 : lookupO (step s e).outcomes id = some o) :
    (∃ v now, e = .finish id (.ok v) now ∧ o = .fulfilled v) ∨
    (∃ ex now, e = .finish id (.err ex) now ∧ o = .rejected ex) ∨
    (e = .cancel id ∧ o = .canceled) := by
  cases e with
  | enqueue prio now =>
    exfalso
    simp only [step] at h1
    unfold pump at h1
    rw [pumpFuel_outcomes] at h1
    dsimp only at h1
    rw [h0] at h1
    cases h1
  | cancel cid =>
    by_cases hc : id = cid
    · subst hc
      refine Or.inr (Or.inr ⟨rfl, ?_⟩)
      simp only [step] at h1
      split at h1
      · dsimp only at h1
        rw [lookupO_settleO_self h0] at h1
        exact (Option.some_inj.mp h1).symm
      · rw [h0] at h1
        cases h1
    · exfalso
      simp only [step] at h1
      split at h1
      · dsimp only at h1
        rw [lookupO_settleO_ne hc .canceled, h0] at h1
        cases h1
      · rw [h0] at h1
        cases h1
  | finish fid res now =>
    by_cases hf : id = fid
    · subst hf
      simp only [step] at h1
      split at h1
      · unfold pump at h1
        rw [pumpFuel_outcomes] at h1
        dsimp only at h1
        rw [lookupO_settleO_self h0] at h1
        cases res with
        | ok v =>
          refine Or.inl ⟨v, now, rfl, ?_⟩
          exact (Option.some_inj.mp h1).symm
        | err ex =>
          refine Or.inr (Or.inl ⟨ex, now, rfl, ?_⟩)
          exact (Option.some_inj.mp h1).symm
      · rw [h0] at h1
        cases h1
    · exfalso
      simp only [step] at h1
      split at h1
      · unfold pump at h1
        rw [pumpFuel_outcomes] at h1
        dsimp only at h1
        rw [lookupO_settleO_ne hf (workOutcome res), h0] at h1
        cases h1
      · rw [h0] at h1
        cases h1

/-- C2: a task's promise settles at most once and immutably — once an
outcome is recorded it survives any further event and any further trace —
and a pending promise can only acquire an outcome through its own work
unit's settlement (fulfilled with the returned value, rejected with the
failure reason) or through its cancel closure (the distinct canceled
signal). -/
theorem outcome_settles_exactly_once (s : QueueState) (e : Event)
    (events : List Event) (id : Nat) (o : Outcome) :
    (lookupO s.outcomes id = some o → lookupO (step s e).outcomes id = some o) ∧
    (lookupO s.outcomes id = some o → lookupO (runEvents s events).outcomes id = some o) ∧
    (lookupO s.outcomes id = none → lookupO (step s e).outcomes id = some o →
      (∃ v now, e = .finish id (.ok v) now ∧ o = .fulfilled v) ∨
      (∃ ex now, e = .finish id (.err ex) now ∧ o = .rejected ex) ∨
      (e = .cancel id ∧ o = .canceled)) :=
  ⟨step_outcomes_mono s e id o,
   runEvents_outcomes_mono s events id o,
   step_outcomes_new s e id o⟩

/-- Witness for C2: a task canceled while running keeps outcome `canceled`
through its work unit's later successful settlement. -/
theorem outcome_settles_exactly_once_witness :
    lookupO (runEvents (createTaskQueue (some 1) none)
      [.enqueue none 0, .cancel 1]).outcomes 1 = some .canceled ∧
    lookupO (step (runEvents (createTaskQueue (some 1) none)
      [.enqueue none 0, .cancel 1]) (.finish 1 (.ok 9) 50)).outcomes 1 = some .canceled :=
  ⟨by decide,
   (outcome_settles_exactly_once (runEvents (createTaskQueue (some 1) none)
      [.enqueue none 0, .cancel 1]) (.finish 1 (.ok 9) 50) [] 1 .canceled).1 (by decide)⟩

/-! ### Cancellation (claim C5) -/

theorem markCanceled_idem (cid : Nat) (it : Item) :
    markCanceled cid (markCanceled cid it) = markCanceled cid it := by
  unfold markCanceled
  by_cases h : it.id = cid
  · simp [h]
  · simp [h]

theorem settleO_idem (l : List (Nat × Outcome)) (id : Nat) (o : Outcome) :
    settleO (settleO l id o) id o = settleO l id o := by
  cases hl : lookupO l id with
  | some o' => rw [settleO_of_some hl o, settleO_of_some hl o]
  | none => exact settleO_of_some (lookupO_settleO_self hl o) o

/-- Counterexample to C5 as stated: under `concurrency = 1`, task 1 is
dispatched immediately; canceling it while it is running settles its
promise to `canceled`, so when its work unit later fulfills with 42 the
observed outcome is NOT the work unit's result. -/
theorem cancel_running_forces_canceled_outcome :
    (runEvents (createTaskQueue (some 1) (some 200))
      [.enqueue (some 1) 0]).active = [1] ∧
    lookupO (runEvents (createTaskQueue (some 1) (some 200))
      [.enqueue (some 1) 0, .cancel 1, .finish 1 (.ok 42) 0]).outcomes 1
      = some .canceled ∧
    lookupO (runEvents (createTaskQueue (some 1) (some 200))
      [.enqueue (some 1) 0, .cancel 1, .finish 1 (.ok 42) 0]).outcomes 1
      ≠ some (.fulfilled 42) := by
  refine ⟨by decide, by decide, by decide⟩

/-- C5 as amended: `cancel()` is idempotent as a state transformer; it
leaves an already settled outcome unchanged; it never touches the running
count, the active set, or the invocation history (an in-flight work unit is
not interrupted); but canceling an allocated task whose promise is still
unsettled — including one already running — settles that promise to
`canceled`. -/
theorem cancel_idempotent_noninterrupting (s : QueueState) (cid : Nat) (o : Outcome) :
    step (step s (.cancel cid)) (.cancel cid) = step s (.cancel cid) ∧
    (lookupO s.outcomes cid = some o →
      lookupO (step s (.cancel cid)).outcomes cid = some o) ∧
    (step s (.cancel cid)).running = s.running ∧
    (step s (.cancel cid)).active = s.active ∧
    (step s (.cancel cid)).started = s.started ∧
    (cid < s.idSeq → lookupO s.outcomes cid = none →
      lookupO (step s (.cancel cid)).outcomes cid = some .canceled) := by
  refine ⟨?_, ?_, ?_, ?_, ?_, ?_⟩
  · simp only [step]
    by_cases h : cid < s.idSeq
    · rw [if_pos h]
      dsimp only
      rw [if_pos h]
      rw [List.map_map,
        @List.map_congr_left _ s.q _ (markCanceled cid ∘ markCanceled cid) (markCanceled cid)
          (fun it _ => markCanceled_idem cid it),
        settleO_idem]
    · rw [if_neg h, if_neg h]
  · intro h
    exact step_outcomes_mono s (.cancel cid) cid o h
  · simp only [step]
    split <;> rfl
  · simp only [step]
    split <;> rfl
  · simp only [step]
    split <;> rfl
  · intro hid h0
    simp only [step]
    rw [if_pos hid]
    dsimp only
    exact lookupO_settleO_self h0 .canceled

/-- Witness for C5 (amended), applied at a settled task (id 1, canceled
while running) and at a still-unsettled queued task (id 2). -/
theorem cancel_idempotent_noninterrupting_witness :
    step (step (runEvents (createTaskQueue (some 1) none)
        [.enqueue none 0, .cancel 1]) (.cancel 1)) (.cancel 1)
      = step (runEvents (createTaskQueue (some 1) none)
        [.enqueue none 0, .cancel 1]) (.cancel 1) ∧
    lookupO (step (runEvents (createTaskQueue (some 1) none)
        [.enqueue none 0, .cancel 1]) (.cancel 1)).outcomes 1 = some .canceled ∧
    lookupO (step (runEvents (createTaskQueue (some 1) none)
        [.enqueue none 0, .enqueue none 0]) (.cancel 2)).outcomes 2 = some .canceled :=
  ⟨(cancel_idempotent_noninterrupting (runEvents (createTaskQueue (some 1) none)
      [.enqueue none 0, .cancel 1]) 1 .canceled).1,
   (cancel_idempotent_noninterrupting (runEvents (createTaskQueue (some 1) none)
      [.enqueue none 0, .cancel 1]) 1 .canceled).2.1 (by decide),
   (cancel_idempotent_noninterrupting (runEvents (createTaskQueue (some 1) none)
      [.enqueue none 0, .enqueue none 0]) 2 .canceled).2.2.2.2.2 (by decide) (by decide)⟩

/-! ### The reachability invariant of the Pending Set (claims C6 and C7) -/

theorem markCanceled_id (cid : Nat) (it : Item) :
    (markCanceled cid it).id = it.id := by
  unfold markCanceled
  split <;> rfl

theorem get?_eraseIdx_decomp (q : List Item) (i : Nat) (item : Item)
    (h : q.get? i = some item) :
    ∃ l₁ l₂, q = l₁ ++ item :: l₂ ∧ q.eraseIdx i = l₁ ++ l₂ ∧ l₁.length = i := by
  induction q generalizing i with
  | nil => cases h
  | cons x rest ih =>
    cases i with
    | zero =>
      have hx : x = item := by simpa using h
      subst hx
      exact ⟨[], rest, rfl, rfl, rfl⟩
    | succ n =>
      have h' : rest.get? n = some item := by simpa using h
      obtain ⟨l₁, l₂, h1, h2, h3⟩ := ih n h'
      refine ⟨x :: l₁, l₂, ?_, ?_, ?_⟩
      · rw [List.cons_append, h1]
      · show x :: rest.eraseIdx n = (x :: l₁) ++ l₂
        rw [List.cons_append, h2]
      · simpa using h3

theorem mem_of_mem_dropMid {l₁ l₂ : List Item} {item it : Item}
    (h : it ∈ l₁ ++ l₂) : it ∈ l₁ ++ item :: l₂ := by
  rcases List.mem_append.mp h with h1 | h2
  · exact List.mem_append.mpr (Or.inl h1)
  · exact List.mem_append.mpr (Or.inr (List.mem_cons_of_mem item h2))

theorem nodup_dropMid {l₁ l₂ : List Item} {item : Item}
    (h : ((l₁ ++ item :: l₂).map Item.id).Nodup) : ((l₁ ++ l₂).map Item.id).Nodup :=
  h.sublist (((List.sublist_cons_self item l₂).append_left l₁).map Item.id)

theorem ne_id_of_nodup_dropMid {l₁ l₂ : List Item} {item it : Item}
    (hnd : ((l₁ ++ item :: l₂).map Item.id).Nodup) (hit : it ∈ l₁ ++ l₂) :
    it.id ≠ item.id := by
  intro heq
  rw [List.map_append, List.map_cons] at hnd
  rcases List.mem_append.mp hit with h1 | h2
  · have hmem : it.id ∈ l₁.map Item.id := List.mem_map_of_mem Item.id h1
    have hdisj := (List.nodup_append.mp hnd).2.2
    exact hdisj hmem (heq ▸ List.mem_cons_self item.id (l₂.map Item.id))
  · have hmem : it.id ∈ l₂.map Item.id := List.mem_map_of_mem Item.id h2
    have hcons := (List.nodup_append.mp hnd).2.1
    exact (List.nodup_cons.mp hcons).1 (heq ▸ hmem)

/-- The state invariant maintained by every scheduler operation: ids are
allocated below `idSeq`; queued entries are pairwise distinct, never
currently active, never previously started; a queued non-canceled entry's
promise is unsettled, a queued canceled entry's promise is already settled
to `canceled`. -/
structure QInv (s : QueueState) : Prop where
  q_lt : ∀ it ∈ s.q, it.id < s.idSeq
  act_lt : ∀ i ∈ s.active, i < s.idSeq
  st_lt : ∀ i ∈ s.started, i < s.idSeq
  out_lt : ∀ i : Nat, lookupO s.outcomes i ≠ none → i < s.idSeq
  q_nodup : (s.q.map Item.id).Nodup
  q_act : ∀ it ∈ s.q, it.id ∉ s.active
  q_st : ∀ it ∈ s.q, it.id ∉ s.started
  pend : ∀ it ∈ s.q, it.canceled = false → lookupO s.outcomes it.id = none
  canc : ∀ it ∈ s.q, it.canceled = true → lookupO s.outcomes it.id = some .canceled

theorem inv_drop (s : QueueState) (l₁ l₂ : List Item) (item : Item)
    (h : QInv s) (hq : s.q = l₁ ++ item :: l₂) :
    QInv { s with q := l₁ ++ l₂ } := by
  have hmem : ∀ it ∈ l₁ ++ l₂, it ∈ s.q := fun it hit => hq ▸ mem_of_mem_dropMid hit
  exact {
    q_lt := fun it hit => h.q_lt it (hmem it hit)
    act_lt := h.act_lt
    st_lt := h.st_lt
    out_lt := h.out_lt
    q_nodup := nodup_dropMid (hq ▸ h.q_nodup)
    q_act := fun it hit => h.q_act it (hmem it hit)
    q_st := fun it hit => h.q_st it (hmem it hit)
    pend := fun it hit => h.pend it (hmem it hit)
    canc := fun it hit => h.canc it (hmem it hit) }

theorem inv_dispatch (s : QueueState) (l₁ l₂ : List Item) (item : Item)
    (h : QInv s) (hq : s.q = l₁ ++ item :: l₂) :
    QInv { s with
      q := l₁ ++ l₂,
      running := s.running + 1,
      active := s.active ++ [item.id],
      started := s.started ++ [item.id] } := by
  have hmem : ∀ it ∈ l₁ ++ l₂, it ∈ s.q := fun it hit => hq ▸ mem_of_mem_dropMid hit
  have hitem : item ∈ s.q := hq ▸ List.mem_append.mpr (Or.inr (List.mem_cons_self item l₂))
  have hne : ∀ it ∈ l₁ ++ l₂, it.id ≠ item.id :=
    fun it hit => ne_id_of_nodup_dropMid (hq ▸ h.q_nodup) hit
  exact {
    q_lt := fun it hit => h.q_lt it (hmem it hit)
    act_lt := by
      intro i hi
      rcases List.mem_append.mp hi with h1 | h2
      · exact h.act_lt i h1
      · rw [List.mem_singleton.mp h2]
        exact h.q_lt item hitem
    st_lt := by
      intro i hi
      rcases List.mem_append.mp hi with h1 | h2
      · exact h.st_lt i h1
      · rw [List.mem_singleton.mp h2]
        exact h.q_lt item hitem
    out_lt := h.out_lt
    q_nodup := nodup_dropMid (hq ▸ h.q_nodup)
    q_act := by
      intro it hit hin
      rcases List.mem_append.mp hin with h1 | h2
      · exact h.q_act it (hmem it hit) h1
      · exact hne it hit (List.mem_singleton.mp h2)
    q_st := by
      intro it hit hin
      rcases List.mem_append.mp hin with h1 | h2
      · exact h.q_st it (hmem it hit) h1
      · exact hne it hit (List.mem_singleton.mp h2)
    pend := fun it hit => h.pend it (hmem it hit)
    canc := fun it hit => h.canc it (hmem it hit) }

theorem pumpFuel_inv (now : Int) (n : Nat) (s : QueueState) (h : QInv s) :
    QInv (pumpFuel now n s) := by
  induction n generalizing s with
  | zero => exact h
  | succ n ih =>
    unfold pumpFuel
    split
    · split
      · exact h
      · split
        · exact h
        · rename_i item hget
          obtain ⟨l₁, l₂, hdec, herase, hlen⟩ := get?_eraseIdx_decomp s.q _ item hget
          split
          · apply ih
            rw [herase]
            exact inv_drop s l₁ l₂ item h hdec
          · apply ih
            rw [herase]
            exact inv_dispatch s l₁ l₂ item h hdec
    · exact h

theorem inv_push (s : QueueState) (prio : Option Int) (now : Int) (h : QInv s) :
    QInv { s with idSeq := s.idSeq + 1, q := s.q ++ [mkItem s prio now] } := by
  have hfresh : lookupO s.outcomes s.idSeq = none := by
    cases hl : lookupO s.outcomes s.idSeq with
    | none => rfl
    | some o => exact absurd (h.out_lt s.idSeq (by simp [hl])) (lt_irrefl _)
  refine ⟨?_, ?_, ?_, ?_, ?_, ?_, ?_, ?_, ?_⟩
  · intro it hit
    rcases List.mem_append.mp hit with h1 | h2
    · exact Nat.lt_succ_of_lt (h.q_lt it h1)
    · rw [List.mem_singleton.mp h2]
      exact Nat.lt_succ_self _
  · intro i hi
    exact Nat.lt_succ_of_lt (h.act_lt i hi)
  · intro i hi
    exact Nat.lt_succ_of_lt (h.st_lt i hi)
  · intro i hi
    exact Nat.lt_succ_of_lt (h.out_lt i hi)
  · rw [List.map_append]
    refine List.Nodup.append h.q_nodup (List.nodup_singleton _) ?_
    intro a ha hb
    rcases List.mem_map.mp ha with ⟨it, hmem, rfl⟩
    have hb' : it.id = s.idSeq := by simpa [mkItem] using hb
    exact absurd (hb' ▸ h.q_lt it hmem) (lt_irrefl s.idSeq)
  · intro it hit hin
    rcases List.mem_append.mp hit with h1 | h2
    · exact h.q_act it h1 hin
    · rw [List.mem_singleton.mp h2] at hin
      exact absurd (h.act_lt _ hin) (lt_irrefl s.idSeq)
  · intro it hit hin
    rcases List.mem_append.mp hit with h1 | h2
    · exact h.q_st it h1 hin
    · rw [List.mem_singleton.mp h2] at hin
      exact absurd (h.st_lt _ hin) (lt_irrefl s.idSeq)
  · intro it hit hc
    rcases List.mem_append.mp hit with h1 | h2
    · exact h.pend it h1 hc
    · rw [List.mem_singleton.mp h2]
      exact hfresh
  · intro it hit hc
    rcases List.mem_append.mp hit with h1 | h2
    · exact h.canc it h1 hc
    · rw [List.mem_singleton.mp h2] at hc
      cases hc

theorem inv_cancel (s : QueueState) (cid : Nat) (h : QInv s) (hcid : cid < s.idSeq) :
    QInv { s with
      q := s.q.map (markCanceled cid),
      outcomes := settleO s.outcomes cid .canceled } := by
  refine ⟨?_, ?_, ?_, ?_, ?_, ?_, ?_, ?_, ?_⟩
  · intro it hit
    rcases List.mem_map.mp hit with ⟨it₀, hmem, rfl⟩
    rw [markCanceled_id]
    exact h.q_lt it₀ hmem
  · exact h.act_lt
  · exact h.st_lt
  · intro i hi
    rcases lookupO_settleO_none hi with h1 | rfl
    · exact h.out_lt i h1
    · exact hcid
  · rw [List.map_map,
      @List.map_congr_left _ s.q _ (Item.id ∘ markCanceled cid) Item.id
        (fun it _ => markCanceled_id cid it)]
    exact h.q_nodup
  · intro it hit hin
    rcases List.mem_map.mp hit with ⟨it₀, hmem, rfl⟩
    rw [markCanceled_id] at hin
    exact h.q_act it₀ hmem hin
  · intro it hit hin
    rcases List.mem_map.mp hit with ⟨it₀, hmem, rfl⟩
    rw [markCanceled_id] at hin
    exact h.q_st it₀ hmem hin
  · intro it hit hc
    rcases List.mem_map.mp hit with ⟨it₀, hmem, rfl⟩
    by_cases hid : it₀.id = cid
    · rw [show markCanceled cid it₀ = { it₀ with canceled := true } by
        simp [markCanceled, hid]] at hc
      cases hc
    · rw [show markCanceled cid it₀ = it₀ by simp [markCanceled, hid]] at hc ⊢
      rw [lookupO_settleO_ne hid .canceled]
      exact h.pend it₀ hmem hc
  · intro it hit hc
    rcases List.mem_map.mp hit with ⟨it₀, hmem, rfl⟩
    by_cases hid : it₀.id = cid
    · rw [markCanceled_id, hid]
      cases hl : lookupO s.outcomes cid with
      | none => exact lookupO_settleO_self hl .canceled
      | some o =>
        cases hc₀ : it₀.canceled with
        | false => exact absurd (hid ▸ h.pend it₀ hmem hc₀) (by simp [hl])
        | true =>
          have := hid ▸ h.canc it₀ hmem hc₀
          rw [settleO_of_some hl .canceled]
          rw [hl] at this
          rw [hl]
          exact this
    · rw [show markCanceled cid it₀ = it₀ by simp [markCanceled, hid]] at hc ⊢
      rw [lookupO_settleO_ne hid .canceled]
      exact h.canc it₀ hmem hc

theorem inv_finish (s : QueueState) (fid : Nat) (res : WorkResult) (h : QInv s)
    (hfid : fid ∈ s.active) :
    QInv { s with
      outcomes := settleO s.outcomes fid (workOutcome res),
      active := s.active.erase fid,
      running := s.running - 1 } := by
  refine ⟨?_, ?_, ?_, ?_, ?_, ?_, ?_, ?_, ?_⟩
  · exact h.q_lt
  · intro i hi
    exact h.act_lt i (List.mem_of_mem_erase hi)
  · exact h.st_lt
  · intro i hi
    rcases lookupO_settleO_none hi with h1 | rfl
    · exact h.out_lt i h1
    · exact h.act_lt i hfid
  · exact h.q_nodup
  · intro it hit hin
    exact h.q_act it hit (List.mem_of_mem_erase hin)
  · exact h.q_st
  · intro it hit hc
    have hne : it.id ≠ fid := fun heq => h.q_act it hit (heq ▸ hfid)
    rw [lookupO_settleO_ne hne (workOutcome res)]
    exact h.pend it hit hc
  · intro it hit hc
    have hne : it.id ≠ fid := fun heq => h.q_act it hit (heq ▸ hfid)
    rw [lookupO_settleO_ne hne (workOutcome res)]
    exact h.canc it hit hc

theorem step_inv (s : QueueState) (e : Event) (h : QInv s) : QInv (step s e) := by
  cases e with
  | enqueue prio now =>
    simp only [step]
    unfold pump
    exact pumpFuel_inv _ _ _ (inv_push s prio now h)
  | cancel cid =>
    simp only [step]
    split
    · rename_i hcid
      exact inv_cancel s cid h hcid
    · exact h
  | finish fid res now =>
    simp only [step]
    split
    · rename_i hfid
      unfold pump
      exact pumpFuel_inv _ _ _ (inv_finish s fid res h hfid)
    · exact h

theorem inv_init (oc oa : Option Int) : QInv (createTaskQueue oc oa) := by
  refine ⟨?_, ?_, ?_, ?_, ?_, ?_, ?_, ?_, ?_⟩ <;>
    simp [createTaskQueue, lookupO]

theorem inv_runEvents (s : QueueState) (events : List Event) (h : QInv s) :
    QInv (runEvents s events) := by
  induction events generalizing s with
  | nil => exact h
  | cons e rest ih => exact ih _ (step_inv s e h)

/-- Counterexample to C6 as stated: with the single slot busy, canceling
queued task 2 marks and settles it but leaves its record in the queue
array, where `stats().queued` still counts it. -/
theorem pendingSet_retains_canceled_record :
    (runEvents (createTaskQueue (some 1) none)
      [.enqueue (some 1) 0, .enqueue (some 1) 0, .cancel 2]).q = [⟨2, 1, 0, true⟩] ∧
    lookupO (runEvents (createTaskQueue (some 1) none)
      [.enqueue (some 1) 0, .enqueue (some 1) 0, .cancel 2]).outcomes 2
      = some .canceled ∧
    (stats (runEvents (createTaskQueue (some 1) none)
      [.enqueue (some 1) 0, .enqueue (some 1) 0, .cancel 2])).1 = 1 :=
  ⟨by decide, by decide, by decide⟩

/-- C6 (amended): after any operation sequence, every record still in the
Pending Set is undispatched — never started, not active — and a
non-canceled record's promise is unsettled; however a canceled record may
remain in the set (already settled to `canceled`) until a later selection
pass drops it, and `stats().queued` counts the whole array including such
records. -/
theorem pendingSet_only_undispatched (oc oa : Option Int) (events : List Event)
    (it : Item) (hit : it ∈ (runEvents (createTaskQueue oc oa) events).q) :
    it.id ∉ (runEvents (createTaskQueue oc oa) events).active ∧
    it.id ∉ (runEvents (createTaskQueue oc oa) events).started ∧
    (it.canceled = false →
      lookupO (runEvents (createTaskQueue oc oa) events).outcomes it.id = none) ∧
    (it.canceled = true →
      lookupO (runEvents (createTaskQueue oc oa) events).outcomes it.id = some .canceled) ∧
    (stats (runEvents (createTaskQueue oc oa) events)).1
      = (runEvents (createTaskQueue oc oa) events).q.length := by
  have h := inv_runEvents _ events (inv_init oc oa)
  exact ⟨h.q_act it hit, h.q_st it hit, h.pend it hit, h.canc it hit, rfl⟩

/-- Witness for C6 (amended) at the canceled lingering record of id 2. -/
theorem pendingSet_only_undispatched_witness :
    (2 : Nat) ∉ (runEvents (createTaskQueue (some 1) none)
      [.enqueue (some 1) 0, .enqueue (some 1) 0, .cancel 2]).active ∧
    (2 : Nat) ∉ (runEvents (createTaskQueue (some 1) none)
      [.enqueue (some 1) 0, .enqueue (some 1) 0, .cancel 2]).started ∧
    lookupO (runEvents (createTaskQueue (some 1) none)
      [.enqueue (some 1) 0, .enqueue (some 1) 0, .cancel 2]).outcomes 2
      = some .canceled :=
  ⟨(pendingSet_only_undispatched (some 1) none
      [.enqueue (some 1) 0, .enqueue (some 1) 0, .cancel 2] ⟨2, 1, 0, true⟩ (by decide)).1,
   (pendingSet_only_undispatched (some 1) none
      [.enqueue (some 1) 0, .enqueue (some 1) 0, .cancel 2] ⟨2, 1, 0, true⟩ (by decide)).2.1,
   (pendingSet_only_undispatched (some 1) none
      [.enqueue (some 1) 0, .enqueue (some 1) 0, .cancel 2] ⟨2, 1, 0, true⟩
        (by decide)).2.2.2.1 rfl⟩

/-! ### Cancellation before dispatch (claim C7) -/

/-- Once a task is canceled-while-pending: its id is below `idSeq`, every
queue entry carrying it is flagged, and it is neither active nor started.
Preserved by every event. -/
def cancP (cid : Nat) (s : QueueState) : Prop :=
  cid < s.idSeq ∧ (∀ it ∈ s.q, it.id = cid → it.canceled = true) ∧
    cid ∉ s.active ∧ cid ∉ s.started

theorem pumpFuel_cancP (cid : Nat) (now : Int) (n : Nat) (s : QueueState)
    (h : cancP cid s) : cancP cid (pumpFuel now n s) := by
  induction n generalizing s with
  | zero => exact h
  | succ n ih =>
    unfold pumpFuel
    split
    · split
      · exact h
      · split
        · exact h
        · rename_i item hget
          obtain ⟨l₁, l₂, hdec, herase, hlen⟩ := get?_eraseIdx_decomp s.q _ item hget
          obtain ⟨h1, h2, h3, h4⟩ := h
          split
          · apply ih
            rw [herase]
            exact ⟨h1, fun it hit hid => h2 it (hdec ▸ mem_of_mem_dropMid hit) hid, h3, h4⟩
          · rename_i hnc
            apply ih
            rw [herase]
            have hitem : item ∈ s.q :=
              hdec ▸ List.mem_append.mpr (Or.inr (List.mem_cons_self _ _))
            have hne : item.id ≠ cid := fun heq => hnc (h2 item hitem heq)
            refine ⟨h1, fun it hit hid => h2 it (hdec ▸ mem_of_mem_dropMid hit) hid, ?_, ?_⟩
            · intro hin
              rcases List.mem_append.mp hin with ha | hb
              · exact h3 ha
              · exact hne (List.mem_singleton.mp hb).symm
            · intro hin
              rcases List.mem_append.mp hin with ha | hb
              · exact h4 ha
              · exact hne (List.mem_singleton.mp hb).symm
    · exact h

theorem step_cancP (cid : Nat) (s : QueueState) (e : Event) (h : cancP cid s) :
    cancP cid (step s e) := by
  obtain ⟨h1, h2, h3, h4⟩ := h
  cases e with
  | enqueue prio now =>
    simp only [step]
    unfold pump
    apply pumpFuel_cancP
    refine ⟨Nat.lt_succ_of_lt h1, ?_, h3, h4⟩
    intro it hit hid
    rcases List.mem_append.mp hit with ha | hb
    · exact h2 it ha hid
    · rw [List.mem_singleton.mp hb] at hid
      have hsc : s.idSeq = cid := hid
      rw [hsc] at h1
      exact absurd h1 (lt_irrefl cid)
  | cancel ccid =>
    simp only [step]
    split
    · refine ⟨h1, ?_, h3, h4⟩
      intro it hit hid
      rcases List.mem_map.mp hit with ⟨it₀, hmem, rfl⟩
      by_cases hcc : it₀.id = ccid
      · simp [markCanceled, hcc]
      · rw [show markCanceled ccid it₀ = it₀ by simp [markCanceled, hcc]] at hid ⊢
        exact h2 it₀ hmem hid
    · exact ⟨h1, h2, h3, h4⟩
  | finish fid res now =>
    simp only [step]
    split
    · unfold pump
      apply pumpFuel_cancP
      refine ⟨h1, h2, ?_, h4⟩
      intro hin
      exact h3 (List.mem_of_mem_erase hin)
    · exact ⟨h1, h2, h3, h4⟩

theorem runEvents_cancP (cid : Nat) (s : QueueState) (events : List Event)
    (h : cancP cid s) : cancP cid (runEvents s events) := by
  induction events generalizing s with
  | nil => exact h
  | cons e rest ih => exact ih _ (step_cancP cid s e h)

/-- C7: a task canceled while still pending (a flagged record in the
Pending Set) already has its promise settled to `canceled` (it settled at
cancellation time, before any running-count change attributable to it),
its work unit was never started, and under every continuation of the trace
it is never started and its outcome stays `canceled`. -/
theorem canceled_pending_never_starts (oc oa : Option Int) (pre post : List Event)
    (it : Item) (hit : it ∈ (runEvents (createTaskQueue oc oa) pre).q)
    (hc : it.canceled = true) :
    lookupO (runEvents (createTaskQueue oc oa) pre).outcomes it.id = some .canceled ∧
    it.id ∉ (runEvents (createTaskQueue oc oa) pre).started ∧
    it.id ∉ (runEvents (runEvents (createTaskQueue oc oa) pre) post).started ∧
    lookupO (runEvents (runEvents (createTaskQueue oc oa) pre) post).outcomes it.id
      = some .canceled := by
  have hinv := inv_runEvents _ pre (inv_init oc oa)
  have hset := hinv.canc it hit hc
  have hP : cancP it.id (runEvents (createTaskQueue oc oa) pre) := by
    refine ⟨hinv.q_lt it hit, ?_, hinv.q_act it hit, hinv.q_st it hit⟩
    intro it' hit' hid
    rw [List.inj_on_of_nodup_map hinv.q_nodup hit' hit hid]
    exact hc
  have hP' := runEvents_cancP it.id _ post hP
  exact ⟨hset, hinv.q_st it hit, hP'.2.2.2,
    runEvents_outcomes_mono _ post it.id .canceled hset⟩

/-- Witness for C7: task 2 canceled while queued behind a running task;
after the running task finishes and the dispatcher pumps again, task 2 was
dropped, never started, outcome still `canceled`. -/
theorem canceled_pending_never_starts_witness :
    lookupO (runEvents (createTaskQueue (some 1) none)
      [.enqueue (some 1) 0, .enqueue (some 1) 0, .cancel 2]).outcomes 2
      = some .canceled ∧
    (2 : Nat) ∉ (runEvents (createTaskQueue (some 1) none)
      [.enqueue (some 1) 0, .enqueue (some 1) 0, .cancel 2]).started ∧
    (2 : Nat) ∉ (runEvents (runEvents (createTaskQueue (some 1) none)
      [.enqueue (some 1) 0, .enqueue (some 1) 0, .cancel 2])
      [.finish 1 (.ok 0) 0]).started ∧
    lookupO (runEvents (runEvents (createTaskQueue (some 1) none)
      [.enqueue (some 1) 0, .enqueue (some 1) 0, .cancel 2])
      [.finish 1 (.ok 0) 0]).outcomes 2 = some .canceled :=
  canceled_pending_never_starts (some 1) none
    [.enqueue (some 1) 0, .enqueue (some 1) 0, .cancel 2]
    [.finish 1 (.ok 0) 0] ⟨2, 1, 0, true⟩ (by decide) rfl

/-! ### Configuration is never validated (claim C8) -/

/-- Counterexample to C8: `createTaskQueue` accepts the invalid (non-positive)
concurrency limit 0 without raising, and `enqueue` still queues the task —
it enters the Pending Set, where `stats()` reports it. -/
theorem invalid_concurrency_not_rejected :
    (runEvents (createTaskQueue (some 0) none) [.enqueue (some 1) 0]).q
      = [⟨1, 1, 0, false⟩] ∧
    stats (runEvents (createTaskQueue (some 0) none) [.enqueue (some 1) 0]) = (1, 0) :=
  ⟨by decide, by decide⟩

/-- A queue configured with a non-positive concurrency limit: nothing is
ever dispatched, but submissions are accepted. -/
def deadP (s : QueueState) : Prop :=
  s.concurrency ≤ 0 ∧ s.running = 0 ∧ s.active = [] ∧ s.started = []

theorem step_deadP (s : QueueState) (e : Event) (h : deadP s) : deadP (step s e) := by
  obtain ⟨hC, hR, hA, hS⟩ := h
  cases e with
  | enqueue prio now =>
    simp only [step]
    unfold pump
    have hno : ¬ ({ s with
        idSeq := s.idSeq + 1,
        q := s.q ++ [mkItem s prio now] } : QueueState).running
        < ({ s with
        idSeq := s.idSeq + 1,
        q := s.q ++ [mkItem s prio now] } : QueueState).concurrency := by
      dsimp only
      omega
    rw [pumpFuel_of_no_capacity hno]
    exact ⟨hC, hR, hA, hS⟩
  | cancel cid =>
    simp only [step]
    split
    · exact ⟨hC, hR, hA, hS⟩
    · exact ⟨hC, hR, hA, hS⟩
  | finish fid res now =>
    simp only [step]
    split
    · rename_i hmem
      rw [hA] at hmem
      cases hmem
    · exact ⟨hC, hR, hA, hS⟩

theorem runEvents_deadP (s : QueueState) (events : List Event) (h : deadP s) :
    deadP (runEvents s events) := by
  induction events generalizing s with
  | nil => exact h
  | cons e rest ih => exact ih _ (step_deadP s e h)

theorem enqueue_q_deadP (s : QueueState) (prio : Option Int) (now : Int)
    (h : deadP s) : (step s (.enqueue prio now)).q = s.q ++ [mkItem s prio now] := by
  obtain ⟨hC, hR, hA, hS⟩ := h
  simp only [step]
  unfold pump
  have hno : ¬ ({ s with
      idSeq := s.idSeq + 1,
      q := s.q ++ [mkItem s prio now] } : QueueState).running
      < ({ s with
      idSeq := s.idSeq + 1,
      q := s.q ++ [mkItem s prio now] } : QueueState).concurrency := by
    dsimp only
    omega
  rw [pumpFuel_of_no_capacity hno]

/-- C8 (amended): the code performs no validation at all. Any concurrency
value — including the invalid non-positive ones — is accepted at
construction; under such a limit no task is ever dispatched (`running`
stays 0, nothing starts), yet every submission still enters the Pending
Set. Likewise `enqueue` never inspects the work unit; a non-callable work
unit is queued all the same and its failure would surface only
asynchronously, at dispatch. -/
theorem no_config_validation (c : Int) (oa : Option Int) (events : List Event)
    (prio : Option Int) (now : Int) (hc : c ≤ 0) :
    (runEvents (createTaskQueue (some c) oa) events).running = 0 ∧
    (runEvents (createTaskQueue (some c) oa) events).started = [] ∧
    (runEvents (createTaskQueue (some c) oa) events).active = [] ∧
    (step (runEvents (createTaskQueue (some c) oa) events) (.enqueue prio now)).q
      = (runEvents (createTaskQueue (some c) oa) events).q
        ++ [mkItem (runEvents (createTaskQueue (some c) oa) events) prio now] := by
  have h0 : deadP (createTaskQueue (some c) oa) := ⟨hc, rfl, rfl, rfl⟩
  have h := runEvents_deadP _ events h0
  exact ⟨h.2.1, h.2.2.2, h.2.2.1, enqueue_q_deadP _ prio now h⟩

/-- Witness for C8 (amended) at concurrency 0 with one prior submission. -/
theorem no_config_validation_witness :
    (0 : Int) ≤ 0 ∧
    (runEvents (createTaskQueue (some 0) none) [.enqueue (some 1) 0]).running = 0 ∧
    (runEvents (createTaskQueue (some 0) none) [.enqueue (some 1) 0]).started = [] ∧
    (runEvents (createTaskQueue (some 0) none) [.enqueue (some 1) 0]).active = [] ∧
    (step (runEvents (createTaskQueue (some 0) none) [.enqueue (some 1) 0])
        (.enqueue (some 2) 5)).q
      = (runEvents (createTaskQueue (some 0) none) [.enqueue (some 1) 0]).q
        ++ [mkItem (runEvents (createTaskQueue (some 0) none) [.enqueue (some 1) 0])
             (some 2) 5] :=
  ⟨by decide,
   no_config_validation 0 none [.enqueue (some 1) 0] (some 2) 5 (by decide)⟩

/-! ### Selector correctness (claim C4) -/

/-- Score of the `j`-th entry of `q` (dummy default out of range; only used
in range). -/
def scoreAt (agingMs now : Int) (q : List Item) (j : Nat) : Int :=
  score agingMs (q.getD j ⟨0, 0, 0, false⟩) now

theorem scoreAt_eq_get (a now : Int) (q : List Item) (j : Nat) (h : j < q.length) :
    scoreAt a now q j = score a (q.get ⟨j, h⟩) now := by
  unfold scoreAt List.getD
  rw [List.get?_eq_get h]
  rfl

theorem pickLoop_drop_spec (a now : Int) (q : List Item) :
    ∀ (k i b : Nat), i + k = q.length → b < i →
    (∀ j, j < i → scoreAt a now q b ≤ scoreAt a now q j) →
    (∀ j, j < b → scoreAt a now q b < scoreAt a now q j) →
    pickLoop a now (q.drop i) i b (scoreAt a now q b) < q.length ∧
    (∀ j, j < q.length →
      scoreAt a now q (pickLoop a now (q.drop i) i b (scoreAt a now q b))
        ≤ scoreAt a now q j) ∧
    (∀ j, j < pickLoop a now (q.drop i) i b (scoreAt a now q b) →
      scoreAt a now q (pickLoop a now (q.drop i) i b (scoreAt a now q b))
        < scoreAt a now q j) := by
  intro k
  induction k with
  | zero =>
    intro i b hik hbi hmin hfirst
    have hq : q.drop i = [] := List.drop_eq_nil_of_le (by omega)
    rw [hq]
    simp only [pickLoop]
    exact ⟨by omega, fun j hj => hmin j (by omega), hfirst⟩
  | succ k ih =>
    intro i b hik hbi hmin hfirst
    have hi : i < q.length := by omega
    have hdrop : q.drop i = q.get ⟨i, hi⟩ :: q.drop (i + 1) := by
      rw [List.drop_eq_getElem_cons hi, List.get_eq_getElem]
    rw [hdrop]
    simp only [pickLoop]
    rw [← scoreAt_eq_get a now q i hi]
    split
    · rename_i hlt
      apply ih (i + 1) i (by omega) (by omega)
      · intro j hj
        rcases Nat.lt_succ_iff_lt_or_eq.mp hj with h' | rfl
        · exact le_of_lt (lt_of_lt_of_le hlt (hmin j h'))
        · exact le_refl _
      · intro j hj
        exact lt_of_lt_of_le hlt (hmin j hj)
    · rename_i hge
      apply ih (i + 1) b (by omega) (by omega)
      · intro j hj
        rcases Nat.lt_succ_iff_lt_or_eq.mp hj with h' | rfl
        · exact hmin j h'
        · exact not_lt.mp hge
      · exact hfirst

theorem pickNextIndex_some_spec (a now : Int) (q : List Item) (r : Nat)
    (hq : pickNextIndex a q now = some r) :
    r < q.length ∧ (∀ j, j < q.length → scoreAt a now q r ≤ scoreAt a now q j) ∧
    (∀ j, j < r → scoreAt a now q r < scoreAt a now q j) := by
  cases q with
  | nil => cases hq
  | cons first rest =>
    have hr : r = pickLoop a now rest 1 0 (score a first now) := by
      have h' : some (pickLoop a now rest 1 0 (score a first now)) = some r := hq
      exact (Option.some_inj.mp h').symm
    have hspec := pickLoop_drop_spec a now (first :: rest) rest.length 1 0
      (by simp [Nat.add_comm]) (by omega)
      (fun j hj => by
        have hj0 : j = 0 := by omega
        subst hj0
        exact le_refl _)
      (fun j hj => absurd hj (Nat.not_lt_zero j))
    have e1 : (first :: rest).drop 1 = rest := rfl
    have e2 : scoreAt a now (first :: rest) 0 = score a first now := rfl
    rw [e1, e2] at hspec
    rw [hr]
    exact hspec

/-- C4: whenever `pickNextIndex` returns an index, that index is in range,
its entry's score at `now` is minimal over the whole array, and it is the
first (earliest-inserted) index attaining that minimum; the selector
returns an index on every non-empty array and `-1` (none) on the empty
one; consequently three equal-priority tasks submitted together are
dispatched in submission order under concurrency limit 1. -/
theorem pickNextIndex_min_earliest (a now : Int) (q : List Item) (r : Nat)
    (hq : pickNextIndex a q now = some r) :
    (r < q.length ∧
     (∀ j, j < q.length → scoreAt a now q r ≤ scoreAt a now q j) ∧
     (∀ j, j < r → scoreAt a now q r < scoreAt a now q j)) ∧
    pickNextIndex a ([] : List Item) now = none ∧
    (∀ (x : Item) (l : List Item), ∃ i, pickNextIndex a (x :: l) now = some i) ∧
    (runEvents (createTaskQueue (some 1) (some 200))
      [.enqueue (some 1) 0, .enqueue (some 1) 0, .enqueue (some 1) 0,
       .finish 1 (.ok 0) 5, .finish 2 (.ok 0) 10]).started = [1, 2, 3] :=
  ⟨pickNextIndex_some_spec a now q r hq, rfl,
   fun x l => ⟨pickLoop a now l 1 0 (score a x now), rfl⟩, by decide⟩

/-- Witness for C4 at a two-entry queue whose later entry has the better
(strictly smaller) score. -/
theorem pickNextIndex_min_earliest_witness :
    pickNextIndex 200 [⟨1, 2, 0, false⟩, ⟨2, 0, 0, false⟩] 0 = some 1 ∧
    1 < ([⟨1, 2, 0, false⟩, ⟨2, 0, 0, false⟩] : List Item).length ∧
    scoreAt 200 0 [⟨1, 2, 0, false⟩, ⟨2, 0, 0, false⟩] 1
      ≤ scoreAt 200 0 [⟨1, 2, 0, false⟩, ⟨2, 0, 0, false⟩] 0 ∧
    scoreAt 200 0 [⟨1, 2, 0, false⟩, ⟨2, 0, 0, false⟩] 1
      < scoreAt 200 0 [⟨1, 2, 0, false⟩, ⟨2, 0, 0, false⟩] 0 :=
  ⟨by decide,
   (pickNextIndex_min_earliest 200 0 [⟨1, 2, 0, false⟩, ⟨2, 0, 0, false⟩] 1
     (by decide)).1.1,
   (pickNextIndex_min_earliest 200 0 [⟨1, 2, 0, false⟩, ⟨2, 0, 0, false⟩] 1
     (by decide)).1.2.1 0 (by decide),
   (pickNextIndex_min_earliest 200 0 [⟨1, 2, 0, false⟩, ⟨2, 0, 0, false⟩] 1
     (by decide)).1.2.2 0 (by decide)⟩
